import Mathlib

/-!
Verification of the ResumeChecker core (`utils.py` plus the analysis glue in
`app.py`) against its natural-language specification.

Texts are modelled as `List Char` (Python strings over code points; the
character classes are the ASCII fragments the regexes in the source use,
noted where Python's Unicode behaviour is wider).  Floating-point TF-IDF
arithmetic is modelled over `ℝ`; fallible library calls (sklearn's
`fit_transform`, which raises `ValueError` on an empty vocabulary) are
modelled with `Except`.
-/

/-! ### Character classes used by the Python code -/

/-- Python's `\s` class (ASCII fragment: space, tab, newline, carriage
return, vertical tab, form feed). -/
def isPySpace (c : Char) : Bool :=
  c = ' ' || c = '\t' || c = '\n' || c = '\r' || c = '\x0b' || c = '\x0c'

/-- The allow-list of `clean_text`'s regex `[^a-z0-9+#.\-()\s]`: a character
survives the substitution iff it is a lowercase letter (`a`-`z`, code points
97-122), a digit (48-57), one of `+ # . - ( )`, or whitespace. -/
def allowedChar (c : Char) : Bool :=
  (97 ≤ c.toNat && c.toNat ≤ 122) || (48 ≤ c.toNat && c.toNat ≤ 57) ||
  c = '+' || c = '#' || c = '.' || c = '-' || c = '(' || c = ')' || isPySpace c

/-- ASCII digit (`0`-`9`, code points 48-57), Python's `\d` (ASCII fragment). -/
def isAsciiDigit (c : Char) : Bool := 48 ≤ c.toNat && c.toNat ≤ 57

/-- The class `[A-Za-z]` (code points 65-90 and 97-122). -/
def isLatinLetter (c : Char) : Bool :=
  (65 ≤ c.toNat && c.toNat ≤ 90) || (97 ≤ c.toNat && c.toNat ≤ 122)

/-! ### Generic substring search (Python's `in` operator building block) -/

/-- Whether `p` occurs at the very start of `l`. -/
def startsWith : List Char → List Char → Bool
  | [], _ => true
  | _ :: _, [] => false
  | a :: ps, b :: ls => a = b && startsWith ps ls

/-- Python's substring test `p in l`. -/
def containsSub (p : List Char) : List Char → Bool
  | [] => startsWith p []
  | b :: ls => startsWith p (b :: ls) || containsSub p ls

/-- Python's `str.lower()` (ASCII fragment, matching `Char.toLower`). -/
def pyLower (l : List Char) : List Char := l.map Char.toLower

/-! ### The Normalizer: `clean_text` (utils.py lines 29-33) -/

/-- One regex-substitution step of `clean_text`: a character outside the
allow-list is replaced by a single space. -/
def replaceDisallowed (c : Char) : Char := if allowedChar c then c else ' '

/-- Worker for `re.sub(r"\s+", " ", t)`: `b` records whether the previous
character belonged to a whitespace run that already emitted its single
replacement space. -/
def collapseAux : Bool → List Char → List Char
  | _, [] => []
  | b, c :: rest =>
    if isPySpace c then
      if b then collapseAux true rest else ' ' :: collapseAux true rest
    else c :: collapseAux false rest

/-- Python's `re.sub(r"\s+", " ", t)`: every maximal whitespace run becomes a
single space. -/
def collapseWs (l : List Char) : List Char := collapseAux false l

/-- Python's `str.strip()`: drop leading and trailing whitespace. -/
def pyStrip (l : List Char) : List Char :=
  ((l.dropWhile isPySpace).reverse.dropWhile isPySpace).reverse

/-- The Normalizer `clean_text` (utils.py): lowercase, replace characters
outside the allow-list by spaces, collapse whitespace runs, strip. -/
def clean_text (l : List Char) : List Char :=
  pyStrip (collapseWs ((l.map Char.toLower).map replaceDisallowed))

/-! ### Normal-form facts about `clean_text`, towards idempotence (C7) -/

lemma toLower_eq_self_of_allowed {c : Char} (h : allowedChar c = true) :
    c.toLower = c := by
  have hn : ¬(65 ≤ c.toNat ∧ c.toNat ≤ 90) := by
    simp only [allowedChar, isPySpace, Bool.or_eq_true, Bool.and_eq_true,
      decide_eq_true_eq] at h
    rcases h with ((((((((⟨h1, h2⟩ | ⟨h1, h2⟩) | rfl) | rfl) | rfl) | rfl) | rfl) | rfl) | hsp)
    · omega
    · omega
    · decide
    · decide
    · decide
    · decide
    · decide
    · decide
    · rcases hsp with (((((rfl | rfl) | rfl) | rfl) | rfl) | rfl) <;> decide
  simp only [Char.toLower]
  rw [if_neg hn]

lemma replaceDisallowed_fixed {c : Char} (h : allowedChar c = true) :
    replaceDisallowed c = c := by
  simp [replaceDisallowed, h]

/-- The composite per-character map of `clean_text`. -/
def charStep (c : Char) : Char := replaceDisallowed c.toLower

lemma clean_text_eq_charStep (l : List Char) :
    clean_text l = pyStrip (collapseWs (l.map charStep)) := by
  simp only [clean_text, List.map_map]
  rfl

lemma allowedChar_space : allowedChar ' ' = true := by decide

lemma charStep_idem (c : Char) : charStep (charStep c) = charStep c := by
  unfold charStep replaceDisallowed
  by_cases h : allowedChar c.toLower = true
  · rw [if_pos h, toLower_eq_self_of_allowed h, if_pos h]
  · rw [if_neg h]
    have hsp : Char.toLower ' ' = ' ' := toLower_eq_self_of_allowed allowedChar_space
    rw [hsp, if_pos allowedChar_space]

lemma charStep_space : charStep ' ' = ' ' := by decide

/-- Members of a collapsed list come from the original list or are the
replacement space. -/
lemma mem_collapseAux {c : Char} :
    ∀ (b : Bool) (l : List Char), c ∈ collapseAux b l → c ∈ l ∨ c = ' '
  | _, [], h => by simp [collapseAux] at h
  | b, x :: rest, h => by
    by_cases hx : isPySpace x = true
    · simp only [collapseAux, hx, if_true] at h
      cases b with
      | true =>
        rcases mem_collapseAux true rest h with h' | h'
        · exact Or.inl (List.mem_cons_of_mem _ h')
        · exact Or.inr h'
      | false =>
        rcases List.mem_cons.mp h with rfl | h'
        · exact Or.inr rfl
        · rcases mem_collapseAux true rest h' with h'' | h''
          · exact Or.inl (List.mem_cons_of_mem _ h'')
          · exact Or.inr h''
    · simp only [collapseAux, hx, if_false] at h
      rcases List.mem_cons.mp h with rfl | h'
      · exact Or.inl (List.mem_cons_self _ _)
      · rcases mem_collapseAux false rest h' with h'' | h''
        · exact Or.inl (List.mem_cons_of_mem _ h'')
        · exact Or.inr h''

lemma mem_of_mem_pyStrip {c : Char} {l : List Char} (h : c ∈ pyStrip l) :
    c ∈ l := by
  unfold pyStrip at h
  have h1 := List.mem_reverse.mp h
  have h3 : c ∈ (l.dropWhile isPySpace).reverse :=
    (List.dropWhile_sublist (l := (l.dropWhile isPySpace).reverse) (p := isPySpace)).mem h1
  exact (List.dropWhile_sublist (l := l) (p := isPySpace)).mem (List.mem_reverse.mp h3)

/-- Every character of a `clean_text` output is a fixed point of the
per-character map. -/
lemma charStep_fixed_of_mem_clean {c : Char} {l : List Char}
    (h : c ∈ clean_text l) : charStep c = c := by
  rw [clean_text_eq_charStep] at h
  rcases mem_collapseAux false _ (mem_of_mem_pyStrip h) with h2 | rfl
  · rcases List.mem_map.mp h2 with ⟨x, _, rfl⟩
    exact charStep_idem x
  · exact charStep_space

/-- The whitespace discipline of collapsed text: every whitespace character
is a plain space, and no two adjacent characters are both whitespace. -/
def SpacedOk (l : List Char) : Prop :=
  (∀ c ∈ l, isPySpace c = true → c = ' ') ∧
  l.Chain' (fun a b => ¬(isPySpace a = true ∧ isPySpace b = true))

lemma collapseAux_spaces_eq_space {c : Char} :
    ∀ (b : Bool) (l : List Char), c ∈ collapseAux b l → isPySpace c = true → c = ' '
  | _, [], h, _ => by simp [collapseAux] at h
  | b, x :: rest, h, hs => by
    by_cases hx : isPySpace x = true
    · simp only [collapseAux, hx, if_true] at h
      cases b with
      | true => exact collapseAux_spaces_eq_space true rest h hs
      | false =>
        rcases List.mem_cons.mp h with rfl | h'
        · rfl
        · exact collapseAux_spaces_eq_space true rest h' hs
    · simp only [collapseAux, hx, if_false] at h
      rcases List.mem_cons.mp h with rfl | h'
      · exact absurd hs (by simp [hx])
      · exact collapseAux_spaces_eq_space false rest h' hs

lemma collapseAux_head_not_space :
    ∀ (l : List Char) (c : Char) (rest : List Char),
      collapseAux true l = c :: rest → isPySpace c = false
  | [], c, rest, h => by simp [collapseAux] at h
  | x :: l, c, rest, h => by
    by_cases hx : isPySpace x = true
    · simp only [collapseAux, hx, if_true] at h
      exact collapseAux_head_not_space l c rest h
    · have hx' : isPySpace x = false := by simpa using hx
      simp only [collapseAux, hx', Bool.false_eq_true, if_false, List.cons.injEq] at h
      rw [← h.1]
      exact hx'

lemma collapseAux_chain' :
    ∀ (b : Bool) (l : List Char),
      (collapseAux b l).Chain' (fun a b => ¬(isPySpace a = true ∧ isPySpace b = true))
  | _, [] => by simp [collapseAux]
  | b, x :: rest => by
    by_cases hx : isPySpace x = true
    · simp only [collapseAux, hx, if_true]
      cases b with
      | true => exact collapseAux_chain' true rest
      | false =>
        refine List.chain'_cons'.mpr ⟨?_, collapseAux_chain' true rest⟩
        intro y hy
        intro hws
        rcases hrest : collapseAux true rest with _ | ⟨z, zs⟩
        · rw [hrest] at hy; simp at hy
        · rw [hrest] at hy
          simp only [List.head?_cons, Option.mem_def, Option.some.injEq] at hy
          subst hy
          rw [collapseAux_head_not_space rest z zs hrest] at hws
          exact Bool.false_ne_true hws.2
    · simp only [collapseAux, hx, if_false]
      refine List.chain'_cons'.mpr ⟨?_, collapseAux_chain' false rest⟩
      intro y _ hws
      exact absurd hws.1 (by simp [hx])

lemma spacedOk_collapseWs (l : List Char) : SpacedOk (collapseWs l) :=
  ⟨fun _ hc => collapseAux_spaces_eq_space false l hc, collapseAux_chain' false l⟩

lemma SpacedOk.tail {c : Char} {l : List Char} (h : SpacedOk (c :: l)) :
    SpacedOk l :=
  ⟨fun x hx => h.1 x (List.mem_cons_of_mem _ hx), (List.chain'_cons'.mp h.2).2⟩

/-- Collapsing is the identity on text that is already collapsed. -/
lemma collapseAux_eq_self : ∀ (l : List Char), SpacedOk l → collapseAux false l = l
  | [], _ => rfl
  | c :: rest, h => by
    by_cases hc : isPySpace c = true
    · have hc' : c = ' ' := h.1 c (List.mem_cons_self _ _) hc
      have hrest : collapseAux true rest = collapseAux false rest := by
        cases rest with
        | nil => rfl
        | cons y ys =>
          have hy : ¬(isPySpace c = true ∧ isPySpace y = true) :=
            (List.chain'_cons.mp h.2).1
          have hy' : isPySpace y = false := by
            cases hyy : isPySpace y with
            | false => rfl
            | true => exact absurd ⟨hc, hyy⟩ hy
          simp [collapseAux, hy']
      have hstep : collapseAux false (c :: rest) = ' ' :: collapseAux true rest := by
        simp [collapseAux, hc]
      rw [hstep, hrest, collapseAux_eq_self rest h.tail, hc']
    · have hc' : isPySpace c = false := by simpa using hc
      have hstep : collapseAux false (c :: rest) = c :: collapseAux false rest := by
        simp [collapseAux, hc']
      rw [hstep, collapseAux_eq_self rest h.tail]

lemma pyStrip_eq_self {l : List Char}
    (hhead : ∀ c, l.head? = some c → isPySpace c = false)
    (hlast : ∀ c, l.getLast? = some c → isPySpace c = false) :
    pyStrip l = l := by
  unfold pyStrip
  have h1 : l.dropWhile isPySpace = l := by
    cases l with
    | nil => rfl
    | cons c cs =>
      rw [List.dropWhile_cons_of_neg]
      simp [hhead c rfl]
  rw [h1]
  have h2 : l.reverse.dropWhile isPySpace = l.reverse := by
    cases hrev : l.reverse with
    | nil => rfl
    | cons c cs =>
      rw [List.dropWhile_cons_of_neg]
      have : l.getLast? = some c := by
        rw [List.getLast?_eq_head?_reverse, hrev, List.head?_cons]
      simp [hlast c this]
  rw [h2, List.reverse_reverse]

lemma dropWhile_head_false {p : Char → Bool} (l : List Char) :
    ∀ c, (l.dropWhile p).head? = some c → p c = false := by
  induction l with
  | nil => intro c h; simp at h
  | cons x xs ih =>
    intro c h
    by_cases hx : p x = true
    · rw [List.dropWhile_cons_of_pos hx] at h
      exact ih c h
    · rw [List.dropWhile_cons_of_neg (by simpa using hx)] at h
      simp only [List.head?_cons, Option.some.injEq] at h
      subst h
      simpa using hx

/-- Stripped text starts with a non-whitespace character. -/
lemma pyStrip_head {l : List Char} :
    ∀ c, (pyStrip l).head? = some c → isPySpace c = false := by
  intro c h
  unfold pyStrip at h
  set w := (l.dropWhile isPySpace).reverse with hw
  have hx : (w.dropWhile isPySpace).getLast? = some c := by
    rw [List.getLast?_eq_head?_reverse]; exact h
  have hne : w.dropWhile isPySpace ≠ [] := by
    intro hnil; rw [hnil] at hx; simp at hx
  obtain ⟨pre, hpre⟩ := List.dropWhile_suffix (l := w) isPySpace
  have hlastw : w.getLast? = some c := by
    rw [← hpre, List.getLast?_append_of_ne_nil _ hne]; exact hx
  have hhead : (l.dropWhile isPySpace).head? = some c := by
    have := hlastw
    rw [hw, List.getLast?_eq_head?_reverse, List.reverse_reverse] at this
    exact this
  exact dropWhile_head_false l c hhead

/-- Stripped text ends with a non-whitespace character. -/
lemma pyStrip_last {l : List Char} :
    ∀ c, (pyStrip l).getLast? = some c → isPySpace c = false := by
  intro c h
  unfold pyStrip at h
  rw [List.getLast?_eq_head?_reverse, List.reverse_reverse] at h
  exact dropWhile_head_false _ c h

lemma chain'_dropWhile {R : Char → Char → Prop} {p : Char → Bool} {l : List Char}
    (h : l.Chain' R) : (l.dropWhile p).Chain' R := by
  obtain ⟨pre, hpre⟩ := List.dropWhile_suffix (l := l) p
  rw [← hpre] at h
  exact (List.chain'_append.mp h).2.1

lemma chain'_reverse_symm {R : Char → Char → Prop} (hsymm : ∀ a b, R a b → R b a)
    {l : List Char} (h : l.Chain' R) : l.reverse.Chain' R :=
  List.chain'_reverse.mpr (h.imp fun _ _ hr => hsymm _ _ hr)

/-- `clean_text` output keeps the collapsed-whitespace discipline. -/
lemma spacedOk_clean_text (l : List Char) : SpacedOk (clean_text l) := by
  rw [clean_text_eq_charStep]
  set z := collapseWs (l.map charStep) with hz
  have hzok : SpacedOk z := spacedOk_collapseWs _
  constructor
  · intro c hc hs
    exact hzok.1 c (mem_of_mem_pyStrip hc) hs
  · have hsymm : ∀ a b : Char,
        ¬(isPySpace a = true ∧ isPySpace b = true) →
        ¬(isPySpace b = true ∧ isPySpace a = true) := by
      intro a b hab hba; exact hab ⟨hba.2, hba.1⟩
    unfold pyStrip
    exact chain'_reverse_symm hsymm (chain'_dropWhile (chain'_reverse_symm hsymm
      (chain'_dropWhile hzok.2)))

/-- C7.  For every string `s`, `clean_text (clean_text s) = clean_text s`:
the Normalizer is idempotent (it is a Lean function, hence also
deterministic and total with no failure mode). -/
theorem claim_C7_clean_text_idempotent (l : List Char) :
    clean_text (clean_text l) = clean_text l := by
  have hmap : (clean_text l).map charStep = clean_text l := by
    have := List.map_congr_left (f := charStep) (g := id)
      (l := clean_text l) (fun c hc => charStep_fixed_of_mem_clean hc)
    simpa using this
  have hcollapse : collapseWs (clean_text l) = clean_text l :=
    collapseAux_eq_self _ (spacedOk_clean_text l)
  have hstrip : pyStrip (clean_text l) = clean_text l := by
    refine pyStrip_eq_self ?_ ?_
    · exact fun c hc => pyStrip_head (l := collapseWs ((l.map Char.toLower).map replaceDisallowed)) c (by rw [← clean_text]; exact hc)
    · exact fun c hc => pyStrip_last (l := collapseWs ((l.map Char.toLower).map replaceDisallowed)) c (by rw [← clean_text]; exact hc)
  rw [clean_text_eq_charStep (clean_text l), hmap, hcollapse, hstrip]

/-! ### The sklearn text analyzer shared by `compute_match_score` and
`extract_keywords`

`TfidfVectorizer(ngram_range=(1,2), stop_words="english")` lowercases the
input, tokenizes it with the default token pattern `\b\w\w+\b` (maximal runs
of at least two word characters), removes English stop words, and emits the
remaining unigrams together with the bigrams of consecutive remaining
tokens.  Word characters are modelled over the ASCII fragment of Python's
`\w` (letters, digits, underscore); `clean_text` output only ever contains
lowercase ASCII anyway. -/

/-- Python's `\w` word character (ASCII fragment). -/
def isWordChar (c : Char) : Bool :=
  (97 ≤ c.toNat && c.toNat ≤ 122) || (65 ≤ c.toNat && c.toNat ≤ 90) ||
  (48 ≤ c.toNat && c.toNat ≤ 57) || c = '_'

/-- Maximal runs of word characters; `acc` is the current run, reversed. -/
def splitRunsAux : List Char → List Char → List (List Char)
  | acc, [] => if acc.isEmpty then [] else [acc.reverse]
  | acc, c :: rest =>
    if isWordChar c then splitRunsAux (c :: acc) rest
    else if acc.isEmpty then splitRunsAux [] rest
    else acc.reverse :: splitRunsAux [] rest

/-- The sklearn default tokenizer `\b\w\w+\b`: maximal word-character runs of
length at least two. -/
def tokenize (l : List Char) : List (List Char) :=
  (splitRunsAux [] l).filter (fun t => 2 ≤ t.length)

/-- Scikit-learn's built-in `ENGLISH_STOP_WORDS` frozenset (the `stop_words
= "english"` argument of both vectorizers in utils.py): 318 entries; the
misspelling `"fify"` and the entry `"computer"` are sklearn's own. -/
def STOP_WORDS : List String :=
  ["a", "about", "above", "across", "after", "afterwards", "again", "against",
   "all", "almost", "alone", "along", "already", "also", "although", "always",
   "am", "among", "amongst", "amoungst", "amount", "an", "and", "another",
   "any", "anyhow", "anyone", "anything", "anyway", "anywhere", "are",
   "around", "as", "at", "back", "be", "became", "because", "become",
   "becomes", "becoming", "been", "before", "beforehand", "behind", "being",
   "below", "beside", "besides", "between", "beyond", "bill", "both",
   "bottom", "but", "by", "call", "can", "cannot", "cant", "co", "computer",
   "con",
   "could", "couldnt", "cry", "de", "describe", "detail", "do", "done",
   "down", "due", "during", "each", "eg", "eight", "either", "eleven",
   "else", "elsewhere", "empty", "enough", "etc", "even", "ever", "every",
   "everyone", "everything", "everywhere", "except", "few", "fifteen",
   "fify", "fill", "find", "fire", "first", "five", "for", "former",
   "formerly", "forty", "found", "four", "from", "front", "full", "further",
   "get", "give", "go", "had", "has", "hasnt", "have", "he", "hence", "her",
   "here", "hereafter", "hereby", "herein", "hereupon", "hers", "herself",
   "him", "himself", "his", "how", "however", "hundred", "i", "ie", "if",
   "in", "inc", "indeed", "interest", "into", "is", "it", "its", "itself",
   "keep", "last", "latter", "latterly", "least", "less", "ltd", "made",
   "many", "may", "me", "meanwhile", "might", "mill", "mine", "more",
   "moreover", "most", "mostly", "move", "much", "must", "my", "myself",
   "name", "namely", "neither", "never", "nevertheless", "next", "nine",
   "no", "nobody", "none", "noone", "nor", "not", "nothing", "now",
   "nowhere", "of", "off", "often", "on", "once", "one", "only", "onto",
   "or", "other", "others", "otherwise", "our", "ours", "ourselves", "out",
   "over", "own", "part", "per", "perhaps", "please", "put", "rather", "re",
   "same", "see", "seem", "seemed", "seeming", "seems", "serious", "several",
   "she", "should", "show", "side", "since", "sincere", "six", "sixty",
   "so", "some", "somehow", "someone", "something", "sometime", "sometimes",
   "somewhere", "still", "such", "system", "take", "ten", "than", "that",
   "the", "their", "them", "themselves", "then", "thence", "there",
   "thereafter", "thereby", "therefore", "therein", "thereupon", "these",
   "they", "thick", "thin", "third", "this", "those", "though", "three",
   "through", "throughout", "thru", "thus", "to", "together", "too", "top",
   "toward", "towards", "twelve", "twenty", "two", "un", "under", "until",
   "up", "upon", "us", "very", "via", "was", "we", "well", "were", "what",
   "whatever", "when", "whence", "whenever", "where", "whereafter",
   "whereas", "whereby", "wherein", "whereupon", "whether", "which",
   "while", "whither", "who", "whoever", "whole", "whom", "whose", "why",
   "will", "with", "within", "without", "would", "yet", "you", "your",
   "yours", "yourself", "yourselves"]

/-- Bigrams of consecutive tokens, joined with a single space (sklearn's
`_word_ngrams` for `ngram_range=(1,2)`). -/
def bigramsOf : List (List Char) → List (List Char)
  | a :: b :: rest => (a ++ ' ' :: b) :: bigramsOf (b :: rest)
  | _ => []

/-- The sklearn analyzer: lowercase, tokenize, drop stop words, emit
unigrams followed by bigrams of consecutive surviving tokens. -/
def analyze (doc : List Char) : List (List Char) :=
  let toks := (tokenize (pyLower doc)).filter
    (fun t => !((STOP_WORDS.map String.toList).contains t))
  toks ++ bigramsOf toks

/-- Number of occurrences of term `t` in the analyzed document (sklearn's
raw term frequency). -/
def docCount (doc t : List Char) : ℕ := (analyze doc).count t

/-- Lexicographic comparison of Python strings by code point (`s <= t`). -/
def lexLe : List Char → List Char → Bool
  | [], _ => true
  | _ :: _, [] => false
  | a :: as, b :: bs =>
    if a.toNat < b.toNat then true
    else if b.toNat < a.toNat then false
    else lexLe as bs

/-- Vocabulary construction of the fitted vectorizer: the distinct analyzer
terms, sorted alphabetically (sklearn sorts its feature names). -/
def sortedVocab (ts : List (List Char)) : List (List Char) :=
  ts.dedup.insertionSort (fun a b => lexLe a b = true)

/-- Message of the `ValueError` sklearn raises from `fit_transform` when no
term survives tokenization and stop-word filtering. -/
def emptyVocabMsg : String :=
  "empty vocabulary; perhaps the documents only contain stop words"

/-- Term containing at least one character of `[a-z0-9]` (the regex filter
`re.search(r"[a-z0-9]", ...)` in `extract_keywords`). -/
def hasAlnumChar (t : List Char) : Bool :=
  t.any (fun c => (97 ≤ c.toNat && c.toNat ≤ 122) || (48 ≤ c.toNat && c.toNat ≤ 57))

/-- Maximal runs of non-whitespace characters; `acc` is the current run,
reversed. -/
def nonSpaceRunsAux : List Char → List Char → List (List Char)
  | acc, [] => if acc.isEmpty then [] else [acc.reverse]
  | acc, c :: rest =>
    if isPySpace c then
      if acc.isEmpty then nonSpaceRunsAux [] rest
      else acc.reverse :: nonSpaceRunsAux [] rest
    else nonSpaceRunsAux (c :: acc) rest

/-- Python's `str.split()` with no argument: whitespace-separated words. -/
def pySplit (l : List Char) : List (List Char) := nonSpaceRunsAux [] l

/-- `len(x.split())` of a term. -/
def wordCount (t : List Char) : ℕ := (pySplit t).length

/-- The key order of `sorted(kws, key=lambda x: (-len(x.split()), x))`:
more words first; ties broken alphabetically. -/
def keyLe (a b : List Char) : Bool :=
  if wordCount b < wordCount a then true
  else if wordCount a < wordCount b then false
  else lexLe a b

/-- Stable ascending argsort of a weight vector.  NumPy's `argsort` uses an
unstable quicksort whose tie order is unspecified; it is modelled here by a
stable sort.  None of the proved properties depend on the tie order. -/
def argsortAsc (w : List ℕ) : List ℕ :=
  (List.range w.length).insertionSort (fun i j => w.getD i 0 ≤ w.getD j 0)

/-- The Keyword Extractor `extract_keywords` (utils.py lines 48-58).

`TfidfVectorizer(ngram_range=(1,2), stop_words="english")` is fitted on the
single-document corpus `[jd_clean]`; when every term is filtered away
`fit_transform` raises `ValueError` (`Except.error`).  For a one-document
corpus every vocabulary term has document frequency 1, so its smoothed idf
is `ln(2/2) + 1 = 1` and the tf-idf row is the raw count vector scaled by a
single positive L2-normalization constant.  `argsort` only depends on the
relative order of the weights, which that scaling preserves, so the weights
are modelled by the raw counts.  The code then takes the `top_k` highest
weights (`argsort()[-top_k:][::-1]`; since `-0 == 0`, the slice `[-0:]` is
the whole array, so at `top_k = 0` every index is kept), keeps terms
containing a character of `[a-z0-9]`, and re-sorts with key
`(-len(x.split()), x)`. -/
def extract_keywords (jd_clean : List Char) (top_k : ℕ) :
    Except String (List (List Char)) :=
  let vocab := sortedVocab (analyze jd_clean)
  if vocab.isEmpty then .error emptyVocabMsg
  else
    let weights := vocab.map (docCount jd_clean)
    let idx :=
      if top_k = 0 then (argsortAsc weights).reverse
      else ((argsortAsc weights).reverse.take top_k)
    let kws := (idx.map (fun i => vocab.getD i [])).filter hasAlnumChar
    .ok (kws.insertionSort (fun a b => keyLe a b = true))

/-! ### Order facts for the keyword sort -/

lemma lexLe_total : ∀ a b : List Char, lexLe a b = true ∨ lexLe b a = true
  | [], _ => Or.inl rfl
  | _ :: _, [] => Or.inr rfl
  | a :: as, b :: bs => by
    rcases Nat.lt_trichotomy a.toNat b.toNat with h | h | h
    · left; simp [lexLe, h]
    · have h1 : ¬ a.toNat < b.toNat := by omega
      have h2 : ¬ b.toNat < a.toNat := by omega
      rcases lexLe_total as bs with ih | ih
      · left; simp [lexLe, h1, h2, ih]
      · right; simp [lexLe, h1, h2, ih]
    · right; simp [lexLe, h]

lemma lexLe_trans :
    ∀ a b c : List Char, lexLe a b = true → lexLe b c = true → lexLe a c = true
  | [], _, _, _, _ => rfl
  | _ :: _, [], _, h, _ => by simp [lexLe] at h
  | _ :: _, _ :: _, [], _, h => by simp [lexLe] at h
  | a :: as, b :: bs, c :: cs, hab, hbc => by
    simp only [lexLe] at hab hbc ⊢
    rcases Nat.lt_trichotomy a.toNat b.toNat with h1 | h1 | h1 <;>
      rcases Nat.lt_trichotomy b.toNat c.toNat with h2 | h2 | h2
    all_goals
      first
        | (have hac : a.toNat < c.toNat := by omega
           simp [hac])
        | (have hab' : ¬ a.toNat < b.toNat := by omega
           have hba' : b.toNat < a.toNat := by omega
           simp [hab', hba'] at hab)
        | (have hbc' : ¬ b.toNat < c.toNat := by omega
           have hcb' : c.toNat < b.toNat := by omega
           simp [hbc', hcb'] at hbc)
        | (have hac1 : ¬ a.toNat < c.toNat := by omega
           have hac2 : ¬ c.toNat < a.toNat := by omega
           have hab1 : ¬ a.toNat < b.toNat := by omega
           have hab2 : ¬ b.toNat < a.toNat := by omega
           have hbc1 : ¬ b.toNat < c.toNat := by omega
           have hbc2 : ¬ c.toNat < b.toNat := by omega
           simp only [if_neg hab1, if_neg hab2, if_true] at hab
           simp only [if_neg hbc1, if_neg hbc2, if_true] at hbc
           simp only [if_neg hac1, if_neg hac2, if_true]
           exact lexLe_trans as bs cs hab hbc)

lemma keyLe_total (a b : List Char) : keyLe a b = true ∨ keyLe b a = true := by
  unfold keyLe
  rcases Nat.lt_trichotomy (wordCount a) (wordCount b) with h | h | h
  · right; simp [h]
  · have h1 : ¬ wordCount a < wordCount b := by omega
    have h2 : ¬ wordCount b < wordCount a := by omega
    rcases lexLe_total a b with ih | ih
    · left; simp [h1, h2, ih]
    · right; simp [h1, h2, ih]
  · left; simp [h]

lemma keyLe_trans {a b c : List Char} (hab : keyLe a b = true)
    (hbc : keyLe b c = true) : keyLe a c = true := by
  unfold keyLe at hab hbc ⊢
  rcases Nat.lt_trichotomy (wordCount a) (wordCount b) with h1 | h1 | h1 <;>
    rcases Nat.lt_trichotomy (wordCount b) (wordCount c) with h2 | h2 | h2
  all_goals
    first
      | (have hca : wordCount c < wordCount a := by omega
         simp [hca])
      | (have hx1 : ¬ wordCount b < wordCount a := by omega
         have hx2 : wordCount a < wordCount b := by omega
         simp [hx1, hx2] at hab)
      | (have hy1 : ¬ wordCount c < wordCount b := by omega
         have hy2 : wordCount b < wordCount c := by omega
         simp [hy1, hy2] at hbc)
      | (have hz1 : ¬ wordCount c < wordCount a := by omega
         have hz2 : ¬ wordCount a < wordCount c := by omega
         have ha1 : ¬ wordCount b < wordCount a := by omega
         have ha2 : ¬ wordCount a < wordCount b := by omega
         have hb1 : ¬ wordCount c < wordCount b := by omega
         have hb2 : ¬ wordCount b < wordCount c := by omega
         simp only [if_neg ha1, if_neg ha2, if_true] at hab
         simp only [if_neg hb1, if_neg hb2, if_true] at hbc
         simp only [if_neg hz1, if_neg hz2, if_true]
         exact lexLe_trans a b c hab hbc)

/-! ### Claims C2 and C8: the Keyword Extractor -/

/-- C2.  The claim says `extract_keywords` returns an empty sequence on
empty input and never raises for any string input.  The code has no such
branch: on the empty string no term survives tokenization, and sklearn's
`fit_transform` raises `ValueError("empty vocabulary; ...")`.  This theorem
evaluates the model at the failing input. -/
theorem claim_C2_extract_keywords_raises_on_empty_input :
    extract_keywords [] 40 = Except.error emptyVocabMsg := rfl

lemma getD_eq_getElem_of_lt {l : List (List Char)} {i : ℕ} (h : i < l.length) :
    l.getD i [] = l[i] := by
  rw [List.getD_eq_getElem?_getD, List.getElem?_eq_getElem h, Option.getD_some]

/-- Counterexample to C8 as stated: at `top_k = 0` the slice
`argsort()[-top_k:]` is `[-0:]`, which is the whole array, so the code
returns every surviving term — here 3 terms, not at most 0. -/
theorem claim_C8_extract_keywords_ranking_counterexample :
    extract_keywords (String.toList "python developer") 0 =
      Except.ok [String.toList "python developer", String.toList "developer",
        String.toList "python"] ∧
    ¬(([String.toList "python developer", String.toList "developer",
        String.toList "python"] : List (List Char)).length ≤ 0) :=
  ⟨rfl, by decide⟩

/-- C8 (amended).  Whenever `extract_keywords` returns a keyword list, that
list has at most `top_k` entries provided `top_k ≥ 1` (at `top_k = 0` the
slice `[-0:]` keeps every surviving term), every entry contains a character
of `[a-z0-9]`, the list is sorted by the key `(-len(x.split()), x)` —
multi-word terms first, alphabetically within equal word counts — and it
has no duplicates, so the ordering is deterministic and independent of ties
in raw TF-IDF weight. -/
theorem claim_C8_extract_keywords_ranking (jd : List Char) (k : ℕ)
    (kws : List (List Char)) (h : extract_keywords jd k = Except.ok kws) :
    (1 ≤ k → kws.length ≤ k) ∧ (∀ t ∈ kws, hasAlnumChar t = true) ∧
    List.Sorted (fun a b => keyLe a b = true) kws ∧ kws.Nodup := by
  simp only [extract_keywords] at h
  set vocab : List (List Char) := sortedVocab (analyze jd) with hvocab
  by_cases hv : vocab.isEmpty = true
  · rw [if_pos hv] at h
    exact absurd h (by simp)
  · rw [if_neg hv] at h
    set w : List ℕ := vocab.map (docCount jd) with hw
    set idx : List ℕ :=
      if k = 0 then (argsortAsc w).reverse
      else ((argsortAsc w).reverse.take k) with hidx
    set kws0 : List (List Char) :=
      (idx.map (fun i => vocab.getD i [])).filter hasAlnumChar with hkws0
    have hkws : kws = kws0.insertionSort (fun a b => keyLe a b = true) := by
      have := Except.ok.inj h
      exact this.symm
    have hperm : List.Perm (kws0.insertionSort (fun a b => keyLe a b = true)) kws0 :=
      List.perm_insertionSort _ _
    have hvnd : vocab.Nodup :=
      (List.perm_insertionSort _ _).nodup_iff.mpr (List.nodup_dedup _)
    have hargperm : List.Perm (argsortAsc w) (List.range w.length) :=
      List.perm_insertionSort _ _
    have hrevnd : ((argsortAsc w).reverse).Nodup :=
      List.nodup_reverse.mpr (hargperm.nodup_iff.mpr (List.nodup_range _))
    have hidxmem : ∀ i ∈ idx, i ∈ (argsortAsc w).reverse := by
      intro i hi
      rw [hidx] at hi
      by_cases hk : k = 0
      · rw [if_pos hk] at hi; exact hi
      · rw [if_neg hk] at hi; exact (List.take_sublist _ _).mem hi
    have hidxlt : ∀ i ∈ idx, i < vocab.length := by
      intro i hi
      have h2 : i ∈ argsortAsc w := List.mem_reverse.mp (hidxmem i hi)
      have h3 : i ∈ List.range w.length := hargperm.mem_iff.mp h2
      have h4 : i < w.length := List.mem_range.mp h3
      simpa [hw] using h4
    refine ⟨?_, ?_, ?_, ?_⟩
    · -- length bound, for positive top_k
      intro hk1
      have hk0 : ¬ k = 0 := by omega
      rw [hkws, hperm.length_eq]
      calc kws0.length ≤ (idx.map (fun i => vocab.getD i [])).length :=
            List.length_filter_le _ _
        _ = idx.length := List.length_map _ _
        _ ≤ k := by
            rw [hidx, if_neg hk0, List.length_take]
            exact min_le_left _ _
    · -- every keyword passes the alnum filter
      intro t ht
      rw [hkws] at ht
      exact List.of_mem_filter (hperm.mem_iff.mp ht)
    · -- sortedness by the deterministic key
      rw [hkws]
      haveI : IsTotal (List Char) (fun a b => keyLe a b = true) := ⟨keyLe_total⟩
      haveI : IsTrans (List Char) (fun a b => keyLe a b = true) :=
        ⟨fun _ _ _ => keyLe_trans⟩
      exact List.sorted_insertionSort _ _
    · -- no duplicates
      rw [hkws, hperm.nodup_iff]
      have hidxnd : idx.Nodup := by
        rw [hidx]
        by_cases hk : k = 0
        · rw [if_pos hk]; exact hrevnd
        · rw [if_neg hk]; exact (List.take_sublist _ _).nodup hrevnd
      refine List.Nodup.filter _ ?_
      refine List.Nodup.map_on ?_ hidxnd
      intro x hx y hy hxy
      have hxl := hidxlt x hx
      have hyl := hidxlt y hy
      rw [getD_eq_getElem_of_lt hxl, getD_eq_getElem_of_lt hyl] at hxy
      exact (List.Nodup.getElem_inj_iff hvnd).mp hxy

/-- Witness for C8 at a concrete job description. -/
theorem claim_C8_extract_keywords_ranking_witness :
    ([String.toList "python developer", String.toList "developer",
      String.toList "python"].length ≤ 40 ∧
     (∀ t ∈ [String.toList "python developer", String.toList "developer",
       String.toList "python"], hasAlnumChar t = true) ∧
     List.Sorted (fun a b => keyLe a b = true)
       [String.toList "python developer", String.toList "developer",
        String.toList "python"] ∧
     [String.toList "python developer", String.toList "developer",
      String.toList "python"].Nodup) := by
  have h := claim_C8_extract_keywords_ranking (String.toList "python developer") 40
    [String.toList "python developer", String.toList "developer",
     String.toList "python"] (by rfl)
  exact ⟨h.1 (by decide), h.2.1, h.2.2.1, h.2.2.2⟩

/-! ### The Similarity Engine: `compute_match_score` (utils.py lines 35-46)

`TfidfVectorizer(ngram_range=(1,2), min_df=1, stop_words="english")` is
fitted on the two-document corpus `[jd_clean, resume_clean]`.  With
sklearn's defaults (`smooth_idf=True`, `sublinear_tf=False`, `norm="l2"`)
the weight of term `t` in a document is `count(t) * (ln(3/(1+df(t))) + 1)`
where `df(t)` is the number of the two documents containing `t`, each row
is then L2-normalized (a zero row is left unchanged: `normalize` replaces a
zero norm by 1), and `cosine_similarity` normalizes again and takes the dot
product.  The composition equals `dot/(g(‖u‖) * g(‖v‖))` where `g` replaces
a zero norm by 1.  `fit_transform` raises `ValueError` when the vocabulary
is empty.  The informational `top_terms` output (an argsort of the jd row,
truncated to 15) is not referenced by any claim and is not modelled. -/

/-- Number of the two corpus documents containing term `t` (sklearn's
document frequency for the corpus `[a, b]`). -/
def docFreq (a b t : List Char) : ℕ :=
  (if 0 < docCount a t then 1 else 0) + (if 0 < docCount b t then 1 else 0)

/-- Smoothed inverse document frequency `ln((1+n)/(1+df)) + 1` with `n = 2`
documents. -/
noncomputable def idf (a b t : List Char) : ℝ :=
  Real.log (3 / (1 + docFreq a b t)) + 1

/-- TF-IDF weight of term `t` for document `doc` of the corpus `[a, b]`. -/
noncomputable def tfidf (a b doc t : List Char) : ℝ :=
  (docCount doc t : ℝ) * idf a b t

/-- The fitted vocabulary of the two-document corpus. -/
def corpusVocab (a b : List Char) : List (List Char) :=
  sortedVocab (analyze a ++ analyze b)

open Classical in
/-- Replacement of a zero norm by 1, as sklearn's `normalize` does before
dividing. -/
noncomputable def l2guard (x : ℝ) : ℝ := if x = 0 then 1 else x

/-- The Similarity Engine `compute_match_score` (utils.py).  The corpus is
`[jd_clean, resume_clean]` and the score is the cosine of the two TF-IDF
rows; an empty vocabulary raises (`Except.error`). -/
noncomputable def compute_match_score (resume_clean jd_clean : List Char) :
    Except String ℝ :=
  let vocab := corpusVocab jd_clean resume_clean
  if vocab.isEmpty then Except.error emptyVocabMsg
  else
    let wJ := fun t => tfidf jd_clean resume_clean jd_clean t
    let wR := fun t => tfidf jd_clean resume_clean resume_clean t
    let dot := (vocab.map (fun t => wJ t * wR t)).sum
    let nJ := Real.sqrt ((vocab.map (fun t => wJ t ^ 2)).sum)
    let nR := Real.sqrt ((vocab.map (fun t => wR t ^ 2)).sum)
    Except.ok (dot / (l2guard nJ * l2guard nR))

lemma mem_corpusVocab {a b t : List Char} :
    t ∈ corpusVocab a b ↔ t ∈ analyze a ∨ t ∈ analyze b := by
  unfold corpusVocab sortedVocab
  rw [(List.perm_insertionSort _ _).mem_iff, List.mem_dedup, List.mem_append]

lemma corpusVocab_nodup (a b : List Char) : (corpusVocab a b).Nodup :=
  (List.perm_insertionSort _ _).nodup_iff.mpr (List.nodup_dedup _)

lemma idf_pos (a b t : List Char) : 0 < idf a b t := by
  unfold idf
  have h1 : (1 : ℝ) ≤ 3 / (1 + docFreq a b t) := by
    have hdf : docFreq a b t ≤ 2 := by
      unfold docFreq; split_ifs <;> omega
    have hd : (docFreq a b t : ℝ) ≤ 2 := by exact_mod_cast hdf
    have hpos : (0 : ℝ) < 1 + docFreq a b t := by positivity
    rw [le_div_iff₀ hpos]
    linarith
  have := Real.log_nonneg h1
  linarith

lemma tfidf_nonneg (a b doc t : List Char) : 0 ≤ tfidf a b doc t :=
  mul_nonneg (Nat.cast_nonneg _) (le_of_lt (idf_pos a b t))

/-- Cosine of two vectors with nonnegative coordinates over a duplicate-free
index list, with sklearn's zero-norm guard, lies in `[0, 1]`. -/
lemma cosine_bounds (v : List (List Char)) (hnd : v.Nodup)
    (f g : List Char → ℝ) (hf : ∀ t, 0 ≤ f t) (hg : ∀ t, 0 ≤ g t) :
    0 ≤ (v.map (fun t => f t * g t)).sum /
        (l2guard (Real.sqrt ((v.map (fun t => f t ^ 2)).sum)) *
         l2guard (Real.sqrt ((v.map (fun t => g t ^ 2)).sum))) ∧
    (v.map (fun t => f t * g t)).sum /
        (l2guard (Real.sqrt ((v.map (fun t => f t ^ 2)).sum)) *
         l2guard (Real.sqrt ((v.map (fun t => g t ^ 2)).sum))) ≤ 1 := by
  set d := (v.map (fun t => f t * g t)).sum with hd
  set Sf := (v.map (fun t => f t ^ 2)).sum with hSf
  set Sg := (v.map (fun t => g t ^ 2)).sum with hSg
  have hdF : d = ∑ t ∈ v.toFinset, f t * g t := (List.sum_toFinset _ hnd).symm
  have hSfF : Sf = ∑ t ∈ v.toFinset, f t ^ 2 := (List.sum_toFinset _ hnd).symm
  have hSgF : Sg = ∑ t ∈ v.toFinset, g t ^ 2 := (List.sum_toFinset _ hnd).symm
  have hd0 : 0 ≤ d := by
    refine List.sum_nonneg ?_
    intro x hx
    obtain ⟨t, _, rfl⟩ := List.mem_map.mp hx
    exact mul_nonneg (hf t) (hg t)
  have hSf0 : 0 ≤ Sf := by
    refine List.sum_nonneg ?_
    intro x hx
    obtain ⟨t, _, rfl⟩ := List.mem_map.mp hx
    exact sq_nonneg _
  have hSg0 : 0 ≤ Sg := by
    refine List.sum_nonneg ?_
    intro x hx
    obtain ⟨t, _, rfl⟩ := List.mem_map.mp hx
    exact sq_nonneg _
  have hCS : d ^ 2 ≤ Sf * Sg := by
    rw [hdF, hSfF, hSgF]
    exact Finset.sum_mul_sq_le_sq_mul_sq _ _ _
  have hdle : d ≤ Real.sqrt Sf * Real.sqrt Sg := by
    calc d = Real.sqrt (d ^ 2) := (Real.sqrt_sq hd0).symm
      _ ≤ Real.sqrt (Sf * Sg) := Real.sqrt_le_sqrt hCS
      _ = Real.sqrt Sf * Real.sqrt Sg := Real.sqrt_mul hSf0 _
  by_cases hfz : Real.sqrt Sf = 0
  · have hSfzero : Sf = 0 := (Real.sqrt_eq_zero hSf0).mp hfz
    have hall : ∀ t ∈ v.toFinset, f t ^ 2 = 0 :=
      (Finset.sum_eq_zero_iff_of_nonneg (fun i _ => sq_nonneg _)).mp (hSfF ▸ hSfzero)
    have hdz : d = 0 := by
      rw [hdF]
      refine Finset.sum_eq_zero ?_
      intro t ht
      have hft : f t = 0 := by
        have := hall t ht
        exact (pow_eq_zero_iff (two_ne_zero)).mp this
      rw [hft, zero_mul]
    rw [hdz, zero_div]
    exact ⟨le_refl 0, zero_le_one⟩
  by_cases hgz : Real.sqrt Sg = 0
  · have hSgzero : Sg = 0 := (Real.sqrt_eq_zero hSg0).mp hgz
    have hall : ∀ t ∈ v.toFinset, g t ^ 2 = 0 :=
      (Finset.sum_eq_zero_iff_of_nonneg (fun i _ => sq_nonneg _)).mp (hSgF ▸ hSgzero)
    have hdz : d = 0 := by
      rw [hdF]
      refine Finset.sum_eq_zero ?_
      intro t ht
      have hgt : g t = 0 := by
        have := hall t ht
        exact (pow_eq_zero_iff (two_ne_zero)).mp this
      rw [hgt, mul_zero]
    rw [hdz, zero_div]
    exact ⟨le_refl 0, zero_le_one⟩
  · have hfpos : 0 < Real.sqrt Sf :=
      lt_of_le_of_ne (Real.sqrt_nonneg _) (Ne.symm hfz)
    have hgpos : 0 < Real.sqrt Sg :=
      lt_of_le_of_ne (Real.sqrt_nonneg _) (Ne.symm hgz)
    simp only [l2guard, if_neg hfz, if_neg hgz]
    constructor
    · exact div_nonneg hd0 (mul_nonneg hfpos.le hgpos.le)
    · exact (div_le_one (mul_pos hfpos hgpos)).mpr hdle

/-! ### Claims C1 and C5: the Similarity Engine -/

/-- C1.  The claim (with the spec) requires an explicit branch returning
0.0 when both normalized texts are empty or when no vocabulary term
survives filtering.  The code has no such branch: sklearn's `fit_transform`
raises `ValueError` there.  This theorem evaluates the model at the failing
input (both normalized texts empty). -/
theorem claim_C1_compute_match_score_raises_on_empty_vocabulary :
    compute_match_score [] [] = Except.error emptyVocabMsg := rfl

/-- Counterexample to C5 as stated: `"x"` is a non-empty normalized text
(it is a fixed point of `clean_text`), yet on the identical pair the code
raises (single characters do not tokenize, so the vocabulary is empty)
instead of returning a similarity of 1.0. -/
theorem claim_C5_counterexample :
    clean_text (String.toList "x") = String.toList "x" ∧
    String.toList "x" ≠ [] ∧
    compute_match_score (String.toList "x") (String.toList "x") =
      Except.error emptyVocabMsg :=
  ⟨rfl, by decide, rfl⟩

/-- C5 (amended).  Whenever `compute_match_score` returns a score the score
lies in `[0, 1]`; for identical texts with at least one analyzer term the
score is exactly 1; and for two texts sharing no analyzer term (with a
non-empty joint vocabulary) the score is exactly 0. -/
theorem claim_C5_similarity_bounds_amended :
    (∀ (resume jd : List Char) (s : ℝ),
        compute_match_score resume jd = Except.ok s → 0 ≤ s ∧ s ≤ 1) ∧
    (∀ a : List Char, analyze a ≠ [] →
        compute_match_score a a = Except.ok 1) ∧
    (∀ (resume jd : List Char), (corpusVocab jd resume).isEmpty = false →
        (∀ t ∈ analyze jd, t ∉ analyze resume) →
        compute_match_score resume jd = Except.ok 0) := by
  refine ⟨?_, ?_, ?_⟩
  · -- range
    intro resume jd s h
    simp only [compute_match_score] at h
    split_ifs at h with hv
    have hs := Except.ok.inj h
    rw [← hs]
    exact cosine_bounds (corpusVocab jd resume) (corpusVocab_nodup _ _)
      (fun t => tfidf jd resume jd t) (fun t => tfidf jd resume resume t)
      (fun t => tfidf_nonneg _ _ _ _) (fun t => tfidf_nonneg _ _ _ _)
  · -- identical texts
    intro a ha
    have hvne : (corpusVocab a a).isEmpty = false := by
      obtain ⟨t, ht⟩ := List.exists_mem_of_ne_nil _ ha
      have htv : t ∈ corpusVocab a a := mem_corpusVocab.mpr (Or.inl ht)
      cases hv : (corpusVocab a a).isEmpty with
      | false => rfl
      | true =>
        rw [List.isEmpty_iff] at hv
        rw [hv] at htv
        cases htv
    simp only [compute_match_score]
    rw [if_neg (by simp [hvne])]
    congr 1
    set v := corpusVocab a a with hv
    set f := fun t => tfidf a a a t with hf
    have hdot : (v.map (fun t => f t * f t)).sum = (v.map (fun t => f t ^ 2)).sum := by
      simp only [pow_two]
    rw [hdot]
    set Sf := (v.map (fun t => f t ^ 2)).sum with hSf
    have hSf0 : 0 ≤ Sf := by
      refine List.sum_nonneg ?_
      intro x hx
      obtain ⟨t, _, rfl⟩ := List.mem_map.mp hx
      exact sq_nonneg _
    obtain ⟨t₀, ht₀⟩ := List.exists_mem_of_ne_nil _ ha
    have ht₀v : t₀ ∈ v := mem_corpusVocab.mpr (Or.inl ht₀)
    have hc : 0 < docCount a t₀ := List.count_pos_iff.mpr ht₀
    have hft₀ : 0 < f t₀ := by
      refine mul_pos ?_ (idf_pos a a t₀)
      exact_mod_cast hc
    have hSfpos : 0 < Sf := by
      rw [hSf, ← List.sum_toFinset _ (corpusVocab_nodup a a)]
      refine Finset.sum_pos' (fun i _ => sq_nonneg _) ?_
      exact ⟨t₀, List.mem_toFinset.mpr ht₀v, pow_pos hft₀ 2⟩
    have hnf : Real.sqrt Sf ≠ 0 := ne_of_gt (Real.sqrt_pos.mpr hSfpos)
    simp only [l2guard, if_neg hnf]
    rw [Real.mul_self_sqrt hSf0, div_self (ne_of_gt hSfpos)]
  · -- disjoint analyzer terms
    intro resume jd hv hdisj
    simp only [compute_match_score]
    rw [if_neg (by simp [hv])]
    congr 1
    have hdz : ((corpusVocab jd resume).map
        (fun t => tfidf jd resume jd t * tfidf jd resume resume t)).sum = 0 := by
      refine List.sum_eq_zero ?_
      intro x hx
      obtain ⟨t, htv, rfl⟩ := List.mem_map.mp hx
      by_cases htj : t ∈ analyze jd
      · have htr : t ∉ analyze resume := hdisj t htj
        have hz : docCount resume t = 0 := List.count_eq_zero.mpr htr
        simp [tfidf, hz]
      · have hz : docCount jd t = 0 := List.count_eq_zero.mpr htj
        simp [tfidf, hz]
    rw [hdz, zero_div]

/-- Witness for the amended C5 at concrete inputs: identical texts
`"python developer"` score 1, and the disjoint pair `("java", "python
developer")` scores 0, which lies in `[0, 1]`. -/
theorem claim_C5_similarity_bounds_amended_witness :
    compute_match_score (String.toList "python developer")
      (String.toList "python developer") = Except.ok 1 ∧
    compute_match_score (String.toList "java")
      (String.toList "python developer") = Except.ok 0 ∧
    (0 ≤ (0 : ℝ) ∧ (0 : ℝ) ≤ 1) := by
  have h2 := claim_C5_similarity_bounds_amended.2.1
    (String.toList "python developer") (by decide)
  have h3 := claim_C5_similarity_bounds_amended.2.2
    (String.toList "java") (String.toList "python developer")
    (by decide) (by decide)
  exact ⟨h2, h3, claim_C5_similarity_bounds_amended.1
    (String.toList "java") (String.toList "python developer") 0 h3⟩

/-! ### Substring-search facts -/

lemma startsWith_iff {p l : List Char} :
    startsWith p l = true ↔ ∃ rest, l = p ++ rest := by
  induction p generalizing l with
  | nil =>
    simp only [startsWith, List.nil_append]
    exact ⟨fun _ => ⟨l, rfl⟩, fun _ => trivial⟩
  | cons a ps ih =>
    cases l with
    | nil =>
      simp only [startsWith, List.cons_append]
      constructor
      · intro h; cases h
      · rintro ⟨rest, hr⟩; cases hr
    | cons b ls =>
      simp only [startsWith, Bool.and_eq_true, decide_eq_true_eq, ih,
        List.cons_append, List.cons.injEq]
      constructor
      · rintro ⟨rfl, rest, rfl⟩
        exact ⟨rest, rfl, rfl⟩
      · rintro ⟨rest, rfl, rfl⟩
        exact ⟨rfl, rest, rfl⟩

lemma containsSub_iff {p l : List Char} :
    containsSub p l = true ↔ ∃ pre rest, l = pre ++ p ++ rest := by
  induction l with
  | nil =>
    simp only [containsSub, startsWith_iff]
    constructor
    · rintro ⟨rest, hr⟩
      exact ⟨[], rest, by simpa using hr⟩
    · rintro ⟨pre, rest, hr⟩
      rcases List.append_eq_nil.mp (List.append_eq_nil.mp hr.symm).1 with ⟨h1, h2⟩
      exact ⟨rest, by simp [h2, (List.append_eq_nil.mp hr.symm).2]⟩
  | cons b ls ih =>
    simp only [containsSub, Bool.or_eq_true, startsWith_iff, ih]
    constructor
    · rintro (⟨rest, hr⟩ | ⟨pre, rest, hr⟩)
      · exact ⟨[], rest, by simpa using hr⟩
      · exact ⟨b :: pre, rest, by simp [hr]⟩
    · rintro ⟨pre, rest, hr⟩
      cases pre with
      | nil => exact Or.inl ⟨rest, by simpa using hr⟩
      | cons x pres =>
        right
        have h2 : b = x ∧ ls = pres ++ p ++ rest := by
          simpa using hr
        exact ⟨pres, rest, h2.2⟩

lemma containsSub_trans {a b c : List Char} (hab : containsSub a b = true)
    (hbc : containsSub b c = true) : containsSub a c = true := by
  rw [containsSub_iff] at hab hbc ⊢
  obtain ⟨p1, r1, rfl⟩ := hab
  obtain ⟨p2, r2, rfl⟩ := hbc
  exact ⟨p2 ++ p1, r1 ++ r2, by simp⟩

/-! ### The Structural Checker (utils.py lines 8-11 and 60-94) -/

/-- A named boolean-with-message check outcome. -/
structure CheckResult where
  ok : Bool
  msg : String
deriving DecidableEq

/-- The fixed section-heading vocabulary `SECTION_HINTS` (utils.py lines
8-11).  Note the overlaps: `"skills"` is a substring of `"technical
skills"` and `"experience"` of `"work experience"`. -/
def SECTION_HINTS : List String :=
  ["summary", "profile", "skills", "technical skills", "experience",
   "work experience", "projects", "education", "certifications", "awards"]

/-- The local-part class `[A-Za-z0-9._%+-]` of the email regex. -/
def isLocalChar (c : Char) : Bool :=
  isLatinLetter c || isAsciiDigit c || c = '.' || c = '_' || c = '%' ||
  c = '+' || c = '-'

/-- The domain class `[A-Za-z0-9.-]` of the email regex. -/
def isDomainChar (c : Char) : Bool :=
  isLatinLetter c || isAsciiDigit c || c = '.' || c = '-'

/-- After the `@`, the email regex requires `[A-Za-z0-9.-]+\.[A-Za-z]{2,}`:
scan for a dot that is preceded by at least one domain character (`seen`
tracks that) and followed by two latin letters. -/
def emailDomSearch : Bool → List Char → Bool
  | _, [] => false
  | seen, c :: rest =>
    (seen && c = '.' &&
      (match rest with
       | a :: b :: _ => isLatinLetter a && isLatinLetter b
       | _ => false)) ||
    (isDomainChar c && emailDomSearch true rest)

/-- A match of the email regex starting at the head of `t`: one or more
local characters, then `@`, then the domain/dot/letters tail.  Since `@` is
not a local character, the local part of a match is exactly the maximal
local run. -/
def emailAtPos (t : List Char) : Bool :=
  (!(t.takeWhile isLocalChar).isEmpty) &&
  (match t.dropWhile isLocalChar with
   | c :: r => c = '@' && emailDomSearch false r
   | [] => false)

/-- `re.search(r"[A-Za-z0-9._%+-]+@[A-Za-z0-9.-]+\.[A-Za-z]{2,}", text)`:
a match may start at any position. -/
def emailSearch (l : List Char) : Bool := l.tails.any emailAtPos

/-- The class `[\d\-\s]` of the phone regex. -/
def phoneClassChar (c : Char) : Bool := isAsciiDigit c || c = '-' || isPySpace c

/-- A match of `\d[\d\-\s]{7,}\d` starting at the head: a digit, then at
least 7 class characters, then another digit.  The trailing digit must sit
at an offset of at least 7 inside the maximal class run after the head. -/
def phoneCore : List Char → Bool
  | [] => false
  | d :: rest =>
    isAsciiDigit d && ((rest.takeWhile phoneClassChar).drop 7).any isAsciiDigit

/-- A match of `\+?\d[\d\-\s]{7,}\d` starting at the head of `t`: the
optional leading `+` is consumed when present (when the head is `+`, the
branch that leaves it unconsumed cannot match, since `+` is not a digit). -/
def phoneAtPos : List Char → Bool
  | [] => false
  | c :: r => if c = '+' then phoneCore r else phoneCore (c :: r)

/-- `re.search(r"(\+?\d[\d\-\s]{7,}\d)", text)`. -/
def phoneSearch (l : List Char) : Bool := l.tails.any phoneAtPos

/-- `has_contact_info` (utils.py lines 60-63): (email found, phone found). -/
def has_contact_info (text : List Char) : Bool × Bool :=
  (emailSearch text, phoneSearch text)

/-- `has_sections` (utils.py lines 65-68): the hints occurring
case-insensitively as raw substrings, in hint-list order. -/
def has_sections (text : List Char) : List String :=
  SECTION_HINTS.filter (fun s => containsSub s.toList (pyLower text))

/-- Counter of `re.findall(r"•|- |\* ", text)`: non-overlapping matches,
scanning left to right, trying the alternatives in order. -/
def bulletCount : List Char → ℕ
  | [] => 0
  | '•' :: r => 1 + bulletCount r
  | '-' :: ' ' :: r => 1 + bulletCount r
  | '*' :: ' ' :: r => 1 + bulletCount r
  | _ :: r => bulletCount r

/-- `bullet_usage` (utils.py lines 70-73): at least 5 bullet markers. -/
def bullet_usage (text : List Char) : Bool := decide (5 ≤ bulletCount text)

/-- A match of `(20\d{2}|19\d{2})` at the head of the list. -/
def yearAt : List Char → Bool
  | a :: b :: c :: d :: _ =>
    ((a = '2' && b = '0') || (a = '1' && b = '9')) &&
    isAsciiDigit c && isAsciiDigit d
  | _ => false

/-- `has_dates` (utils.py lines 75-77). -/
def has_dates (text : List Char) : Bool := text.tails.any yearAt

/-- The static tables message of `ats_checks`. -/
def tablesFlag : String := "⚠️ Use tables sparingly; some ATS drops table content."

/-- `ats_checks` (utils.py lines 79-94): the six fixed checks, in the
insertion order of the Python dict (which preserves it). -/
def ats_checks (resume_text : List Char) (ext : String) :
    List (String × CheckResult) :=
  let email_ok := (has_contact_info resume_text).1
  let phone_ok := (has_contact_info resume_text).2
  let sections := has_sections resume_text
  let bullets_ok := bullet_usage resume_text
  let dates_ok := has_dates resume_text
  let file_ok := ext = "pdf" || ext = "docx"
  [("File Type",
    ⟨file_ok, "PDF/DOCX are ATS-safe. Avoid images/scans."⟩),
   ("Contact Info",
    ⟨email_ok && phone_ok,
     "Include a professional email and reachable phone number."⟩),
   ("Clear Sections",
    ⟨decide (3 ≤ sections.length),
     "Detected sections: " ++
       (let j := String.intercalate ", " sections
        if j.isEmpty then "none" else j) ++ "."⟩),
   ("Bullet Structure",
    ⟨bullets_ok, "Use concise bullet points with action verbs and impact."⟩),
   ("Dates Present",
    ⟨dates_ok, "Include years for roles/projects (YYYY–YYYY)."⟩),
   ("Tables/Graphics", ⟨true, tablesFlag⟩)]

lemma lookup_clear_sections (t : List Char) (ext : String) :
    (ats_checks t ext).lookup "Clear Sections" =
      some ⟨decide (3 ≤ (has_sections t).length),
        "Detected sections: " ++
          (let j := String.intercalate ", " (has_sections t)
           if j.isEmpty then "none" else j) ++ "."⟩ := rfl

/-- C9.  For every raw text and file-extension tag, `ats_checks` returns
exactly the six fixed check names, in order, and the Tables/Graphics entry
always has `ok = true` with the static cautionary message. -/
theorem claim_C9_ats_checks_fixed_shape (t : List Char) (ext : String) :
    (ats_checks t ext).map Prod.fst =
      ["File Type", "Contact Info", "Clear Sections", "Bullet Structure",
       "Dates Present", "Tables/Graphics"] ∧
    (ats_checks t ext).lookup "Tables/Graphics" = some ⟨true, tablesFlag⟩ :=
  ⟨rfl, rfl⟩

/-- C10.  Because `has_sections` matches each hint as a raw
case-insensitive substring and the hint list overlaps, a text containing
`"work experience"` is counted for both `"experience"` and
`"work experience"`, and one containing `"technical skills"` for both
`"skills"` and `"technical skills"`; two such headings already yield at
least 4 distinct hints, so the Clear Sections threshold of 3 is met. -/
theorem claim_C10_overlapping_section_hints (t : List Char) (ext : String)
    (h1 : containsSub (String.toList "work experience") (pyLower t) = true)
    (h2 : containsSub (String.toList "technical skills") (pyLower t) = true) :
    ("experience" ∈ has_sections t ∧ "work experience" ∈ has_sections t) ∧
    ("skills" ∈ has_sections t ∧ "technical skills" ∈ has_sections t) ∧
    3 ≤ (has_sections t).length ∧
    ((ats_checks t ext).lookup "Clear Sections").map CheckResult.ok =
      some true := by
  have hexp : containsSub (String.toList "experience") (pyLower t) = true :=
    containsSub_trans (by decide) h1
  have hsk : containsSub (String.toList "skills") (pyLower t) = true :=
    containsSub_trans (by decide) h2
  have m1 : "experience" ∈ has_sections t :=
    List.mem_filter.mpr ⟨by decide, hexp⟩
  have m2 : "work experience" ∈ has_sections t :=
    List.mem_filter.mpr ⟨by decide, h1⟩
  have m3 : "skills" ∈ has_sections t :=
    List.mem_filter.mpr ⟨by decide, hsk⟩
  have m4 : "technical skills" ∈ has_sections t :=
    List.mem_filter.mpr ⟨by decide, h2⟩
  have hnodup : (has_sections t).Nodup :=
    List.Nodup.filter _ (by decide : SECTION_HINTS.Nodup)
  have hsubset : ({"skills", "technical skills", "experience"} : Finset String)
      ⊆ (has_sections t).toFinset := by
    intro x hx
    simp only [Finset.mem_insert, Finset.mem_singleton] at hx
    rcases hx with rfl | rfl | rfl
    · exact List.mem_toFinset.mpr m3
    · exact List.mem_toFinset.mpr m4
    · exact List.mem_toFinset.mpr m1
  have hlen : 3 ≤ (has_sections t).length := by
    have h3 : ({"skills", "technical skills", "experience"} : Finset String).card = 3 := by
      decide
    have := Finset.card_le_card hsubset
    rw [h3, List.toFinset_card_of_nodup hnodup] at this
    exact this
  refine ⟨⟨m1, m2⟩, ⟨m3, m4⟩, hlen, ?_⟩
  rw [lookup_clear_sections, Option.map_some']
  have : decide (3 ≤ (has_sections t).length) = true := decide_eq_true hlen
  rw [this]

/-- Witness for C10: a text with exactly the two headings `"work
experience"` and `"technical skills"`. -/
theorem claim_C10_overlapping_section_hints_witness :
    ("experience" ∈ has_sections (String.toList "work experience and technical skills") ∧
     "work experience" ∈ has_sections (String.toList "work experience and technical skills")) ∧
    ("skills" ∈ has_sections (String.toList "work experience and technical skills") ∧
     "technical skills" ∈ has_sections (String.toList "work experience and technical skills")) ∧
    3 ≤ (has_sections (String.toList "work experience and technical skills")).length ∧
    ((ats_checks (String.toList "work experience and technical skills") "pdf").lookup
      "Clear Sections").map CheckResult.ok = some true :=
  claim_C10_overlapping_section_hints
    (String.toList "work experience and technical skills") "pdf"
    (by decide) (by decide)

/-! ### Keyword coverage (app.py lines 53-54) -/

/-- `present = [k for k in jd_keywords if k.lower() in resume_clean]`. -/
def presentKeywords (jd_keywords : List (List Char)) (resume_clean : List Char) :
    List (List Char) :=
  jd_keywords.filter (fun k => containsSub (pyLower k) resume_clean)

/-- `missing = [k for k in jd_keywords if k.lower() not in resume_clean]`. -/
def missingKeywords (jd_keywords : List (List Char)) (resume_clean : List Char) :
    List (List Char) :=
  jd_keywords.filter (fun k => !(containsSub (pyLower k) resume_clean))

/-- C6.  For every extracted keyword list and normalized candidate text,
`present` and `missing` partition the keywords: every keyword lands in
exactly one of the two lists. -/
theorem claim_C6_present_missing_partition (kws : List (List Char))
    (resume : List Char) :
    (∀ k, k ∈ kws ↔
      (k ∈ presentKeywords kws resume ∨ k ∈ missingKeywords kws resume)) ∧
    (∀ k, ¬(k ∈ presentKeywords kws resume ∧ k ∈ missingKeywords kws resume)) := by
  constructor
  · intro k
    simp only [presentKeywords, missingKeywords, List.mem_filter,
      Bool.not_eq_true']
    constructor
    · intro hk
      by_cases hp : containsSub (pyLower k) resume = true
      · exact Or.inl ⟨hk, hp⟩
      · exact Or.inr ⟨hk, by simpa using hp⟩
    · rintro (⟨hk, _⟩ | ⟨hk, _⟩) <;> exact hk
  · rintro k ⟨hp, hm⟩
    simp only [presentKeywords, missingKeywords, List.mem_filter,
      Bool.not_eq_true'] at hp hm
    rw [hp.2] at hm
    exact absurd hm.2 (by simp)

/-! ### The Suggestion Generator: `suggest_improvements`
(utils.py lines 96-119) -/

/-- Low-score suggestion (score below 0.45). -/
def LOW_SCORE_MSG : String :=
  "Customize your summary and top bullets with JD keywords to raise the match score."

/-- Mid-score suggestion (score in [0.45, 0.65)). -/
def MID_SCORE_MSG : String :=
  "Strengthen skills and achievements using exact phrasing from the JD where truthful."

/-- The missing-keyword suggestion, naming the first 12 missing keywords. -/
def missingMsg (missing : List String) : String :=
  "Incorporate missing role-specific keywords where accurate: " ++
    String.intercalate ", " (missing.take 12) ++ "."

/-- The per-failing-check suggestion. -/
def atsFixMsg (kv : String × CheckResult) : String :=
  "ATS: " ++ kv.2.msg ++ " (Improve: " ++ kv.1 ++ ")."

/-- The three generic best-practice suggestions, always appended last. -/
def GENERAL_SUGGESTIONS : List String :=
  ["Start bullets with strong action verbs (Built, Optimized, Automated) and quantify impact.",
   "Keep formatting simple: one column, standard fonts, no headers/footers.",
   "Save as text-based PDF (not scanned)."]

/-- `suggest_improvements` (utils.py): score gates (`if`/`elif`), then the
missing-keyword gap, then one suggestion per failing check in report
order, then the generic suggestions.  Scores are modelled over `ℚ`; the
`present` argument is accepted and ignored exactly as in the source. -/
def suggest_improvements (match_score : ℚ) (present missing : List String)
    (ats_report : List (String × CheckResult)) : List String :=
  (if match_score < 0.45 then [LOW_SCORE_MSG]
   else if match_score < 0.65 then [MID_SCORE_MSG]
   else []) ++
  (if missing.isEmpty then [] else [missingMsg missing]) ++
  ((ats_report.filter (fun kv => !kv.2.ok)).map atsFixMsg) ++
  GENERAL_SUGGESTIONS

/-- The output shape claim C4 describes, written as the claim words it:
one low-score suggestion iff `score < 0.45`, else one weaker suggestion iff
`0.45 ≤ score < 0.65`, else neither; then the missing-keyword suggestion
iff `missing` is non-empty; then one suggestion per check with
`ok = false`; then always the three fixed generic suggestions last. -/
def suggestionsSpec (score : ℚ) (missing : List String)
    (report : List (String × CheckResult)) : List String :=
  (if score < 0.45 then [LOW_SCORE_MSG] else []) ++
  (if 0.45 ≤ score ∧ score < 0.65 then [MID_SCORE_MSG] else []) ++
  (if missing ≠ [] then [missingMsg missing] else []) ++
  ((report.filter (fun kv => kv.2.ok = false)).map atsFixMsg) ++
  GENERAL_SUGGESTIONS

/-- C4.  `suggest_improvements` produces exactly the ordered output the
claim describes, for every score, keyword list and check report. -/
theorem claim_C4_suggest_improvements_shape (score : ℚ)
    (present missing : List String) (report : List (String × CheckResult)) :
    suggest_improvements score present missing report =
      suggestionsSpec score missing report := by
  have hmiss : (if missing.isEmpty then ([] : List String) else [missingMsg missing]) =
      (if missing ≠ [] then [missingMsg missing] else []) := by
    cases missing <;> simp
  have hfilter : report.filter (fun kv => !kv.2.ok) =
      report.filter (fun kv => kv.2.ok = false) := by
    refine List.filter_congr ?_
    intro kv _
    cases hok : kv.2.ok <;> simp
  unfold suggest_improvements suggestionsSpec
  rw [hmiss, hfilter]
  by_cases h1 : score < 0.45
  · have h2 : ¬(0.45 ≤ score ∧ score < 0.65) := by
      rintro ⟨ha, _⟩; linarith
    simp [h1, h2]
  · by_cases h2 : score < 0.65
    · have h45 : (0.45 : ℚ) ≤ score := not_lt.mp h1
      simp [h1, h2, h45]
    · have hn : ¬(0.45 ≤ score ∧ score < 0.65) := by
        rintro ⟨_, hb⟩; exact h2 hb
      simp [h1, h2, hn]

/-! ### Claim C3: semantics of the Contact Info regex search -/

lemma drop_append_of_le {n : ℕ} :
    ∀ {u w : List Char}, n ≤ u.length → (u ++ w).drop n = u.drop n ++ w := by
  induction n with
  | zero => intro u w _; simp
  | succ m ih =>
    intro u w h
    cases u with
    | nil => simp at h
    | cons x us =>
      simp only [List.cons_append, List.drop_succ_cons]
      exact ih (by simpa using h)

/-- The email pattern `[A-Za-z0-9._%+-]+@[A-Za-z0-9.-]+\.[A-Za-z]{2,}`
occurs somewhere in `l` (the spec-level reading of `re.search`). -/
def EmailFound (l : List Char) : Prop :=
  ∃ pre loc dom tld post,
    l = pre ++ loc ++ '@' :: (dom ++ '.' :: tld) ++ post ∧
    loc ≠ [] ∧ (∀ c ∈ loc, isLocalChar c = true) ∧
    dom ≠ [] ∧ (∀ c ∈ dom, isDomainChar c = true) ∧
    2 ≤ tld.length ∧ (∀ c ∈ tld, isLatinLetter c = true)

lemma emailDomSearch_iff :
    ∀ (seen : Bool) (r : List Char),
      emailDomSearch seen r = true ↔
      ∃ dom a b rest, r = dom ++ '.' :: a :: b :: rest ∧
        (∀ c ∈ dom, isDomainChar c = true) ∧ (dom = [] → seen = true) ∧
        isLatinLetter a = true ∧ isLatinLetter b = true
  | seen, [] => by
    simp only [emailDomSearch]
    constructor
    · intro h; cases h
    · rintro ⟨dom, a, b, rest, hr, -, -, -, -⟩
      cases dom <;> simp at hr
  | seen, c :: r' => by
    constructor
    · intro h
      simp only [emailDomSearch, Bool.or_eq_true, Bool.and_eq_true,
        decide_eq_true_eq] at h
      rcases h with ⟨⟨hseen, hdot⟩, htwo⟩ | ⟨hdomc, hrec⟩
      · rcases hr' : r' with _ | ⟨a, r''⟩
        · rw [hr'] at htwo; cases htwo
        · rcases hr'' : r'' with _ | ⟨b, rest⟩
          · rw [hr', hr''] at htwo; cases htwo
          · rw [hr', hr''] at htwo
            simp only [Bool.and_eq_true] at htwo
            exact ⟨[], a, b, rest, by simp [hdot, hr', hr''],
              by simp, fun _ => hseen, htwo.1, htwo.2⟩
      · obtain ⟨dom', a, b, rest, hr, hdom, -, ha, hb⟩ :=
          (emailDomSearch_iff true r').mp hrec
        refine ⟨c :: dom', a, b, rest, by simp [hr], ?_, by simp, ha, hb⟩
        intro x hx
        rcases List.mem_cons.mp hx with rfl | hx'
        · exact hdomc
        · exact hdom x hx'
    · rintro ⟨dom, a, b, rest, hr, hdom, hse, ha, hb⟩
      simp only [emailDomSearch, Bool.or_eq_true, Bool.and_eq_true,
        decide_eq_true_eq]
      cases dom with
      | nil =>
        simp only [List.nil_append, List.cons.injEq] at hr
        obtain ⟨rfl, rfl⟩ := hr
        exact Or.inl ⟨⟨hse rfl, rfl⟩, by simp [ha, hb]⟩
      | cons d dom' =>
        simp only [List.cons_append, List.cons.injEq] at hr
        obtain ⟨hcd, hrest⟩ := hr
        subst hrest
        refine Or.inr ⟨?_, ?_⟩
        · rw [hcd]; exact hdom d (List.mem_cons_self _ _)
        · exact (emailDomSearch_iff true _).mpr
            ⟨dom', a, b, rest, rfl, fun x hx => hdom x (List.mem_cons_of_mem _ hx),
             by simp, ha, hb⟩

lemma at_not_local : isLocalChar '@' = false := by decide

lemma emailAtPos_iff (t : List Char) :
    emailAtPos t = true ↔
    ∃ loc r, t = loc ++ '@' :: r ∧ loc ≠ [] ∧
      (∀ c ∈ loc, isLocalChar c = true) ∧ emailDomSearch false r = true := by
  constructor
  · intro h
    simp only [emailAtPos, Bool.and_eq_true, Bool.not_eq_true',
      List.isEmpty_eq_false] at h
    obtain ⟨hne, hmatch⟩ := h
    rcases hd : t.dropWhile isLocalChar with _ | ⟨x, xs⟩
    · rw [hd] at hmatch; cases hmatch
    · rw [hd] at hmatch
      simp only [Bool.and_eq_true, decide_eq_true_eq] at hmatch
      obtain ⟨rfl, hdom⟩ := hmatch
      refine ⟨t.takeWhile isLocalChar, xs, ?_, hne, ?_, hdom⟩
      · rw [← hd, List.takeWhile_append_dropWhile]
      · intro c hc; exact List.mem_takeWhile_imp hc
  · rintro ⟨loc, r, rfl, hne, hloc, hdom⟩
    have htw : (loc ++ '@' :: r).takeWhile isLocalChar = loc := by
      rw [List.takeWhile_append_of_pos hloc, List.takeWhile_cons_of_neg (by simp [at_not_local])]
      simp
    have hdw : (loc ++ '@' :: r).dropWhile isLocalChar = '@' :: r := by
      rw [List.dropWhile_append_of_pos hloc, List.dropWhile_cons_of_neg (by simp [at_not_local])]
    simp only [emailAtPos, htw, hdw, Bool.and_eq_true, Bool.not_eq_true',
      List.isEmpty_eq_false]
    exact ⟨hne, by simp, hdom⟩

lemma emailSearch_iff (l : List Char) :
    emailSearch l = true ↔ EmailFound l := by
  constructor
  · intro h
    simp only [emailSearch, List.any_eq_true] at h
    obtain ⟨t, htails, hat⟩ := h
    obtain ⟨pre, hpre⟩ := (List.mem_tails _ _).mp htails
    obtain ⟨loc, r, rfl, hne, hloc, hdom⟩ := (emailAtPos_iff t).mp hat
    obtain ⟨dom, a, b, rest, rfl, hdomc, hse, ha, hb⟩ :=
      (emailDomSearch_iff false r).mp hdom
    have hdomne : dom ≠ [] := by
      intro hnil
      exact Bool.false_ne_true (hse hnil)
    refine ⟨pre, loc, dom, [a, b], rest, ?_, hne, hloc, hdomne, hdomc, by simp, ?_⟩
    · rw [← hpre]; simp
    · intro c hc
      rcases List.mem_cons.mp hc with rfl | hc'
      · exact ha
      · rcases List.mem_cons.mp hc' with rfl | hc''
        · exact hb
        · cases hc''
  · rintro ⟨pre, loc, dom, tld, post, rfl, hne, hloc, hdomne, hdomc, htld, hlat⟩
    rcases tld with _ | ⟨a, tld'⟩
    · simp at htld
    rcases tld' with _ | ⟨b, tld''⟩
    · simp at htld
    simp only [emailSearch, List.any_eq_true]
    refine ⟨loc ++ '@' :: (dom ++ '.' :: a :: b :: (tld'' ++ post)), ?_, ?_⟩
    · rw [List.mem_tails]
      refine ⟨pre, ?_⟩
      simp
    · refine (emailAtPos_iff _).mpr ⟨loc, dom ++ '.' :: a :: b :: (tld'' ++ post),
        rfl, hne, hloc, ?_⟩
      refine (emailDomSearch_iff false _).mpr
        ⟨dom, a, b, tld'' ++ post, rfl, hdomc, fun hnil => absurd hnil hdomne, ?_, ?_⟩
      · exact hlat a (by simp)
      · exact hlat b (by simp)

/-- The phone pattern `\+?\d[\d\-\s]{7,}\d` occurs somewhere in `l`: a
digit, then at least 7 characters drawn from digits, hyphens and
whitespace, then another digit. -/
def PhoneFound (l : List Char) : Prop :=
  ∃ pre d1 mid d2 post, l = pre ++ d1 :: (mid ++ d2 :: post) ∧
    isAsciiDigit d1 = true ∧ isAsciiDigit d2 = true ∧
    7 ≤ mid.length ∧ (∀ c ∈ mid, phoneClassChar c = true)

lemma mem_drop_decomp {x : Char} {xs : List Char} {n : ℕ} (h : x ∈ xs.drop n) :
    ∃ u v, xs = u ++ x :: v ∧ n ≤ u.length := by
  obtain ⟨w, v, hwv⟩ := List.append_of_mem h
  have hlen : n ≤ xs.length := by
    by_contra hlt
    have hnil : xs.drop n = [] := List.drop_eq_nil_iff.mpr (by omega)
    rw [hnil] at h
    cases h
  have hx : xs = (xs.take n ++ w) ++ x :: v := by
    rw [List.append_assoc, ← hwv, List.take_append_drop]
  refine ⟨xs.take n ++ w, v, hx, ?_⟩
  rw [List.length_append, List.length_take]
  omega

lemma phoneCore_iff (t : List Char) :
    phoneCore t = true ↔
    ∃ d1 mid d2 post, t = d1 :: (mid ++ d2 :: post) ∧
      isAsciiDigit d1 = true ∧ isAsciiDigit d2 = true ∧
      7 ≤ mid.length ∧ (∀ c ∈ mid, phoneClassChar c = true) := by
  cases t with
  | nil =>
    simp only [phoneCore]
    constructor
    · intro h; cases h
    · rintro ⟨d1, mid, d2, post, hr, -, -, -, -⟩; cases hr
  | cons d rest =>
    simp only [phoneCore, Bool.and_eq_true]
    constructor
    · rintro ⟨hd, hany⟩
      rw [List.any_eq_true] at hany
      obtain ⟨x, hxmem, hxdig⟩ := hany
      obtain ⟨u, v, huv, hlen⟩ := mem_drop_decomp hxmem
      have hrest : rest = (u ++ x :: v) ++ rest.dropWhile phoneClassChar := by
        rw [← huv, List.takeWhile_append_dropWhile]
      refine ⟨d, u, x, v ++ rest.dropWhile phoneClassChar, ?_, hd, hxdig, hlen, ?_⟩
      · conv_lhs => rw [hrest]
        simp
      · intro c hc
        have hmem : c ∈ rest.takeWhile phoneClassChar := by
          rw [huv]
          exact List.mem_append_left _ hc
        exact List.mem_takeWhile_imp hmem
    · rintro ⟨d1, mid, d2, post, heq, hd1, hd2, hlen, hmid⟩
      injection heq with h1 h2
      subst h1
      subst h2
      refine ⟨hd1, ?_⟩
      have htw : (mid ++ d2 :: post).takeWhile phoneClassChar =
          mid ++ d2 :: post.takeWhile phoneClassChar := by
        rw [List.takeWhile_append_of_pos hmid,
          List.takeWhile_cons_of_pos (by simp [phoneClassChar, hd2])]
      rw [htw, drop_append_of_le hlen, List.any_eq_true]
      exact ⟨d2, by simp, hd2⟩

lemma digit_ne_plus {c : Char} (h : isAsciiDigit c = true) : c ≠ '+' := by
  intro hc
  subst hc
  exact absurd h (by decide)

lemma phoneSearch_iff (l : List Char) : phoneSearch l = true ↔ PhoneFound l := by
  constructor
  · intro h
    simp only [phoneSearch, List.any_eq_true] at h
    obtain ⟨t, htails, hat⟩ := h
    have hsuff : t <:+ l := (List.mem_tails _ _).mp htails
    have hcore : ∃ t', t' <:+ l ∧ phoneCore t' = true := by
      cases t with
      | nil => simp [phoneAtPos] at hat
      | cons c r =>
        by_cases hc : c = '+'
        · subst hc
          simp only [phoneAtPos, if_pos rfl] at hat
          exact ⟨r, (List.suffix_cons '+' r).trans hsuff, hat⟩
        · simp only [phoneAtPos, if_neg hc] at hat
          exact ⟨c :: r, hsuff, hat⟩
    obtain ⟨t', hsuff', hcore'⟩ := hcore
    obtain ⟨pre, hpre⟩ := hsuff'
    obtain ⟨d1, mid, d2, post, rfl, h1, h2, h3, h4⟩ := (phoneCore_iff t').mp hcore'
    exact ⟨pre, d1, mid, d2, post, by rw [← hpre], h1, h2, h3, h4⟩
  · rintro ⟨pre, d1, mid, d2, post, rfl, h1, h2, h3, h4⟩
    simp only [phoneSearch, List.any_eq_true]
    refine ⟨d1 :: (mid ++ d2 :: post), ?_, ?_⟩
    · rw [List.mem_tails]
      exact ⟨pre, rfl⟩
    · simp only [phoneAtPos, if_neg (digit_ne_plus h1)]
      exact (phoneCore_iff _).mpr ⟨d1, mid, d2, post, rfl, h1, h2, h3, h4⟩

/-- Modelled from the claim's wording for the counterexample: a contiguous
sequence of digits optionally separated by spaces or hyphens, containing 7
or more digits, occurs in `l`.  (The code's regex additionally requires the
whole sequence to span at least 9 characters.) -/
def ClaimPhoneFound (l : List Char) : Prop :=
  ∃ pre seq post, l = pre ++ seq ++ post ∧
    (∀ c ∈ seq, isAsciiDigit c = true ∨ c = ' ' ∨ c = '-') ∧
    7 ≤ (seq.filter isAsciiDigit).length

/-- Counterexample to C3 as stated: `"a@b.co 5551234"` contains an email
and a 7-digit phone-like sequence, so the claim requires Contact Info
`ok = true`, but the code's phone regex `\+?\d[\d\-\s]{7,}\d` needs a span
of at least 9 characters and fails, so the check reports `ok = false`. -/
theorem claim_C3_contact_info_counterexample :
    EmailFound (String.toList "a@b.co 5551234") ∧
    ClaimPhoneFound (String.toList "a@b.co 5551234") ∧
    ((ats_checks (String.toList "a@b.co 5551234") "pdf").lookup
      "Contact Info").map CheckResult.ok = some false := by
  refine ⟨?_, ?_, ?_⟩
  · exact ⟨[], ['a'], ['b'], ['c', 'o'], String.toList " 5551234",
      by decide, by decide, by decide, by decide, by decide, by decide, by decide⟩
  · exact ⟨String.toList "a@b.co ", String.toList "5551234", [],
      by decide, by decide, by decide⟩
  · decide

/-- C3 (amended).  The Contact Info check has `ok = true` iff the raw text
contains both the email pattern and the code's phone pattern: a digit,
then at least seven characters each a digit, whitespace or hyphen, then a
digit (at least 9 characters in total; an optional `+` may precede). -/
theorem claim_C3_contact_info_amended (t : List Char) (ext : String) :
    ((ats_checks t ext).lookup "Contact Info").map CheckResult.ok = some true ↔
    (EmailFound t ∧ PhoneFound t) := by
  have hlk : (ats_checks t ext).lookup "Contact Info" =
      some ⟨emailSearch t && phoneSearch t,
        "Include a professional email and reachable phone number."⟩ := rfl
  rw [hlk, Option.map_some']
  constructor
  · intro h
    have hb : (emailSearch t && phoneSearch t) = true := by simpa using h
    rw [Bool.and_eq_true] at hb
    exact ⟨(emailSearch_iff t).mp hb.1, (phoneSearch_iff t).mp hb.2⟩
  · rintro ⟨he, hp⟩
    have hb : (emailSearch t && phoneSearch t) = true := by
      rw [Bool.and_eq_true]
      exact ⟨(emailSearch_iff t).mpr he, (phoneSearch_iff t).mpr hp⟩
    simp [hb]

/-- Witness for the amended C3: a text with an email and a 12-character
phone number satisfies both patterns and the check reports `ok = true`. -/
theorem claim_C3_contact_info_amended_witness :
    ((ats_checks (String.toList "a@b.co 555-123-4567") "pdf").lookup
      "Contact Info").map CheckResult.ok = some true :=
  (claim_C3_contact_info_amended (String.toList "a@b.co 555-123-4567") "pdf").mpr
    ⟨⟨[], ['a'], ['b'], ['c', 'o'], String.toList " 555-123-4567",
      by decide, by decide, by decide, by decide, by decide, by decide, by decide⟩,
     ⟨String.toList "a@b.co ", '5', String.toList "55-123-456", '7', [],
      by decide, by decide, by decide, by decide, by decide⟩⟩

/-- Witness for C6 at a concrete keyword list and candidate text. -/
theorem claim_C6_present_missing_partition_witness :
    (String.toList "python" ∈ [String.toList "python", String.toList "sql"] ↔
      (String.toList "python" ∈ presentKeywords
          [String.toList "python", String.toList "sql"]
          (String.toList "python developer") ∨
       String.toList "python" ∈ missingKeywords
          [String.toList "python", String.toList "sql"]
          (String.toList "python developer"))) ∧
    ¬(String.toList "sql" ∈ presentKeywords
          [String.toList "python", String.toList "sql"]
          (String.toList "python developer") ∧
      String.toList "sql" ∈ missingKeywords
          [String.toList "python", String.toList "sql"]
          (String.toList "python developer")) :=
  ⟨(claim_C6_present_missing_partition
      [String.toList "python", String.toList "sql"]
      (String.toList "python developer")).1 (String.toList "python"),
   (claim_C6_present_missing_partition
      [String.toList "python", String.toList "sql"]
      (String.toList "python developer")).2 (String.toList "sql")⟩
